import Mathlib

/-!
Formal model of the `RedisCacheClient` from `src/redis/redis-client.ts` of
the codezest-cache repository.

The operations whose behaviour is a pure function of the underlying store's
responses (`get`, `set`, `del`, `clear`, `disconnect`) are embedded as
functions over explicit environment outcomes (`Except`-valued results of the
store calls).  The event-driven `delPattern` is embedded as a state machine:
one call is driven by a sequence of events — `data` batches emitted by
`scanStream`, settlements of the per-batch `pipeline.exec()` promises,
end-of-stream, and stream errors — and the promise bookkeeping of the source
(`deletionPromises`, `deletedCount`, `resolve`/`reject`) is the machine
state.
-/

namespace RedisCacheClient

/-- Result of one entry of `pipeline.exec()`: the `[err, value]` pair for a
single `DEL` command.  `okNum n` is a successful reply whose value is the
number `n`; `okOther` is a successful reply whose value is not a number;
`errRes` is an entry carrying an error. -/
inductive KeyRes where
  | errRes : KeyRes
  | okNum : Nat → KeyRes
  | okOther : KeyRes
deriving DecidableEq

/-- Contribution of one per-key result to `deletedCount`: the source adds
`count` only when `!err && typeof count === 'number'`. -/
def keyContrib : KeyRes → Nat
  | .okNum n => n
  | _ => 0

/-- Outcome of one `pipeline.exec()` promise: it may reject, resolve with a
`null` results array, or resolve with a list of per-key results. -/
inductive ExecOutcome where
  | execRejected : ExecOutcome
  | execResolved : Option (List KeyRes) → ExecOutcome
deriving DecidableEq

/-- Contribution of one settled batch pipeline to `deletedCount`: a rejected
exec is caught by the attached `.catch` and only logged (contributing 0),
`results?.forEach` skips a `null` results array, and otherwise the per-key
contributions are summed. -/
def execContrib : ExecOutcome → Nat
  | .execRejected => 0
  | .execResolved none => 0
  | .execResolved (some rs) => (rs.map keyContrib).sum

/-- Embedding of `get`: the store read either fails or yields the raw string
(`none` when the key is absent), and `parse` embeds `JSON.parse`.  The
source's `try/catch` and its falsiness test `if (!data)` (false for `null`
and for the empty string) are explicit; the caller never receives an
error. -/
def get {V : Type} (storeGet : Except String (Option String))
    (parse : String → Except String V) : Except String (Option V) :=
  match storeGet with
  | .error _ => .ok none
  | .ok none => .ok none
  | .ok (some data) =>
      if data = "" then .ok none
      else
        match parse data with
        | .error _ => .ok none
        | .ok v => .ok (some v)

/-- Store command issued by `set`: either `SET key value EX ttl` or a plain
`SET key value`. -/
inductive SetCommand where
  | setPlain : String → String → SetCommand
  | setWithEx : String → String → Nat → SetCommand
deriving DecidableEq

/-- Command selected by `set`: the source tests `if (ttl)`, a JavaScript
truthiness test, so a `ttl` equal to `0` takes the same branch as an omitted
`ttl`. -/
def setCommand (key serialized : String) (ttl : Option Nat) : SetCommand :=
  match ttl with
  | some t => if t ≠ 0 then .setWithEx key serialized t else .setPlain key serialized
  | none => .setPlain key serialized

/-- Embedding of `set`: `JSON.stringify` may throw and the store write may
fail; both happen inside the `try`, are logged, and the caller always sees
normal completion. -/
def set (key : String) (stringifyRes : Except String String) (ttl : Option Nat)
    (store : SetCommand → Except String Unit) : Except String Unit :=
  match stringifyRes with
  | .error _ => .ok ()
  | .ok serialized =>
      match store (setCommand key serialized ttl) with
      | .error _ => .ok ()
      | .ok _ => .ok ()

/-- Embedding of `del`: the store delete may fail; the failure is caught and
logged, never surfaced. -/
def del (storeDel : Except String Nat) : Except String Unit :=
  match storeDel with
  | .error _ => .ok ()
  | .ok _ => .ok ()

/-- Embedding of `clear`: `flushall` may fail; the failure is caught and
logged, never surfaced. -/
def clear (storeFlush : Except String String) : Except String Unit :=
  match storeFlush with
  | .error _ => .ok ()
  | .ok _ => .ok ()

/-- Embedding of `disconnect`: the source awaits `client.quit()` with no
`try/catch` around it, so a rejection of `quit` propagates to the caller
unchanged. -/
def disconnect (quitRes : Except String String) : Except String Unit :=
  match quitRes with
  | .error e => .error e
  | .ok _ => .ok ()

/-- Construction-time options (`RedisCacheClientOptions`): the store
connection parameters inherited from the store client's option type plus an
optional injected logger.  The option type contains no scan batch-size
field. -/
structure RedisCacheClientOptions where
  host : Option String
  port : Option Nat
  password : Option String
  hasLogger : Bool
deriving DecidableEq

/-- Arguments `delPattern` passes to `scanStream`: the glob filter and the
per-step `COUNT` hint. -/
structure ScanStreamArgs where
  matchGlob : String
  count : Nat
deriving DecidableEq

/-- Scan arguments built by `delPattern`: the `count` is the literal `100`
from the source, independent of the construction-time options. -/
def delPatternScanArgs (_opts : RedisCacheClientOptions) (pattern : String) :
    ScanStreamArgs :=
  ⟨pattern, 100⟩

/-- Phase of one `delPattern` call's promise: scanning (stream active),
draining (end-of-stream seen, `Promise.all` of the pipeline promises still
pending), resolved with a count, or rejected with an error. -/
inductive Phase where
  | scanning : Phase
  | draining : Phase
  | resolvedP : Nat → Phase
  | rejectedP : String → Phase
deriving DecidableEq

/-- State of one `delPattern` call: the running tally `deletedCount`, the
number of batch pipelines issued so far (`deletionPromises.length`), the set
of indices of issued-but-unsettled pipelines, the list of every key passed
to `pipeline.del`, and the promise phase. -/
structure DPState where
  deletedCount : Nat
  issued : Nat
  pendingExecs : Finset Nat
  submitted : List String
  phase : Phase
deriving DecidableEq

/-- State at the start of a `delPattern` call. -/
def startState : DPState := ⟨0, 0, ∅, [], .scanning⟩

/-- Events driving one `delPattern` call: a `data` batch of keys from the
scan stream, settlement of pipeline number `i` with some outcome,
end-of-stream, and a stream error. -/
inductive Ev where
  | dataE : List String → Ev
  | settleE : Nat → ExecOutcome → Ev
  | endE : Ev
  | errE : String → Ev
deriving DecidableEq

/-- One step of the `delPattern` machine.  A `data` event with a non-empty
key array builds a pipeline, submits every key, and registers the exec
promise (`deletionPromises.push`); a settlement applies the `.then`
bookkeeping and, if the call is draining and this was the last outstanding
pipeline, lets `Promise.all` resolve the call with the tally; `end` resolves
immediately when nothing is outstanding and otherwise starts draining; a
stream error rejects the call if it is not already settled. -/
def step (s : DPState) : Ev → DPState
  | .dataE keys =>
      match s.phase with
      | .scanning =>
          if keys.length ≠ 0 then
            { s with issued := s.issued + 1
                     pendingExecs := insert s.issued s.pendingExecs
                     submitted := s.submitted ++ keys }
          else s
      | _ => s
  | .settleE i r =>
      if i ∈ s.pendingExecs then
        match s.phase with
        | .draining =>
            if s.pendingExecs.erase i = ∅ then
              { s with deletedCount := s.deletedCount + execContrib r
                       pendingExecs := s.pendingExecs.erase i
                       phase := .resolvedP (s.deletedCount + execContrib r) }
            else
              { s with deletedCount := s.deletedCount + execContrib r
                       pendingExecs := s.pendingExecs.erase i }
        | _ =>
            { s with deletedCount := s.deletedCount + execContrib r
                     pendingExecs := s.pendingExecs.erase i }
      else s
  | .endE =>
      match s.phase with
      | .scanning =>
          if s.pendingExecs = ∅ then { s with phase := .resolvedP s.deletedCount }
          else { s with phase := .draining }
      | _ => s
  | .errE e =>
      match s.phase with
      | .scanning => { s with phase := .rejectedP e }
      | .draining => { s with phase := .rejectedP e }
      | _ => s

/-- Run the machine from a given state over a list of events. -/
def runFrom (s : DPState) (es : List Ev) : DPState := es.foldl step s

/-- Run one `delPattern` call over a list of events. -/
def run (es : List Ev) : DPState := runFrom startState es

/-- Contribution of an event to the tally: the acknowledged deletion count
of a settlement, 0 for every other event. -/
def settleContrib : Ev → Nat
  | .settleE _ r => execContrib r
  | _ => 0

/-- Sum of all acknowledged per-key deletion counts over a trace. -/
def settlesSum (es : List Ev) : Nat := (es.map settleContrib).sum

/-- Concatenation of all keys reported by the scan stream's `data` events in
a trace. -/
def dataKeys : List Ev → List String
  | [] => []
  | (.dataE ks) :: es => ks ++ dataKeys es
  | _ :: es => dataKeys es

/-- Number of pipelines issued after processing a trace, starting from a
given count: each non-empty `data` batch issues one pipeline. -/
def issuedAfter : Nat → List Ev → Nat
  | i, [] => i
  | i, (.dataE ks) :: es => issuedAfter (if ks.length ≠ 0 then i + 1 else i) es
  | i, _ :: es => issuedAfter i es

/-- Set of pipeline indices settled after processing a trace, starting from
a given set. -/
def settledAfter : Finset Nat → List Ev → Finset Nat
  | st, [] => st
  | st, (.settleE i _) :: es => settledAfter (insert i st) es
  | st, _ :: es => settledAfter st es

/-- Whether a terminal stream event (`end` or `error`) has been seen after
processing a trace, starting from a given flag. -/
def termAfter : Bool → List Ev → Bool
  | t, [] => t
  | _, .endE :: es => termAfter true es
  | _, (.errE _) :: es => termAfter true es
  | t, _ :: es => termAfter t es

/-- Well-formed event traces, threading the issued count, the settled set
and the terminal flag: stream events (`data`, `end`, `error`) occur only
before the single terminal event, and each issued pipeline settles at most
once, only after being issued.  This is exactly the behaviour of a Node
stream (no events after `end`/`error`) and of promises (one settlement
each). -/
def wfFrom : Nat → Finset Nat → Bool → List Ev → Bool
  | _, _, _, [] => true
  | issued, settled, t, (.dataE ks) :: es =>
      !t && wfFrom (if ks.length ≠ 0 then issued + 1 else issued) settled t es
  | issued, settled, t, (.settleE i _) :: es =>
      decide (i < issued) && !(decide (i ∈ settled)) &&
        wfFrom issued (insert i settled) t es
  | issued, settled, t, .endE :: es => !t && wfFrom issued settled true es
  | issued, settled, t, (.errE _) :: es => !t && wfFrom issued settled true es

/-- Well-formed trace of one complete or partial `delPattern` call. -/
def WF (es : List Ev) : Bool := wfFrom 0 ∅ false es

/-- Unfolding of `runFrom` on a cons. -/
lemma runFrom_cons (s : DPState) (e : Ev) (es : List Ev) :
    runFrom s (e :: es) = runFrom (step s e) es := rfl

/-- Unfolding of `runFrom` on an append. -/
lemma runFrom_append (s : DPState) (xs ys : List Ev) :
    runFrom s (xs ++ ys) = runFrom (runFrom s xs) ys := by
  simp [runFrom, List.foldl_append]

/-- Once the terminal flag is set it stays set. -/
lemma termAfter_true (es : List Ev) : termAfter true es = true := by
  induction es with
  | nil => rfl
  | cons e es ih => cases e <;> simpa [termAfter] using ih

/-- Tally contribution of a trace decomposes over cons. -/
lemma settlesSum_cons (e : Ev) (es : List Ev) :
    settlesSum (e :: es) = settleContrib e + settlesSum es := by
  simp [settlesSum]

/-- Tally contribution of a trace decomposes over append. -/
lemma settlesSum_append (xs ys : List Ev) :
    settlesSum (xs ++ ys) = settlesSum xs + settlesSum ys := by
  simp [settlesSum]

/-- Issuing a new pipeline extends the pending set consistently with the
range/settled bookkeeping. -/
lemma insert_range_sdiff {is : Nat} {settled : Finset Nat}
    (h : settled ⊆ Finset.range is) :
    insert is (Finset.range is \ settled) = Finset.range (is + 1) \ settled := by
  ext x
  simp only [Finset.mem_insert, Finset.mem_sdiff, Finset.mem_range]
  constructor
  · rintro (rfl | ⟨hx, hs⟩)
    · refine ⟨by omega, fun hc => ?_⟩
      have := h hc
      simp [Finset.mem_range] at this
    · exact ⟨by omega, hs⟩
  · rintro ⟨hx, hs⟩
    by_cases hxi : x = is
    · exact Or.inl hxi
    · exact Or.inr ⟨by omega, hs⟩

/-- Settling pipeline `i` shrinks the pending set consistently with the
range/settled bookkeeping. -/
lemma erase_range_sdiff (is : Nat) (settled : Finset Nat) (i : Nat) :
    (Finset.range is \ settled).erase i = Finset.range is \ insert i settled := by
  ext x
  simp only [Finset.mem_erase, Finset.mem_sdiff, Finset.mem_range,
    Finset.mem_insert]
  tauto

/-- A `data` event while scanning with a non-empty batch issues a
pipeline. -/
lemma step_dataE_scanning (s : DPState) (ks : List String)
    (h : s.phase = .scanning) (hk : ks.length ≠ 0) :
    step s (.dataE ks) =
      { s with issued := s.issued + 1
               pendingExecs := insert s.issued s.pendingExecs
               submitted := s.submitted ++ ks } := by
  simp [step, h, hk]

/-- A `data` event while scanning with an empty batch is a no-op. -/
lemma step_dataE_scanning_empty (s : DPState) (ks : List String)
    (h : s.phase = .scanning) (hk : ks.length = 0) :
    step s (.dataE ks) = s := by
  simp [step, h, hk]

/-- End-of-stream while scanning resolves at once when nothing is pending
and otherwise starts draining. -/
lemma step_endE_scanning (s : DPState) (h : s.phase = .scanning) :
    step s .endE =
      if s.pendingExecs = ∅ then { s with phase := .resolvedP s.deletedCount }
      else { s with phase := .draining } := by
  simp [step, h]

/-- A stream error while scanning rejects the call. -/
lemma step_errE_scanning (s : DPState) (e : String) (h : s.phase = .scanning) :
    step s (.errE e) = { s with phase := .rejectedP e } := by
  simp [step, h]

/-- A resolved call with no outstanding pipelines is frozen: no further
event changes the state. -/
lemma step_resolved_frozen (s : DPState) (e : Ev) (n : Nat)
    (h1 : s.phase = .resolvedP n) (h2 : s.pendingExecs = ∅) : step s e = s := by
  cases e with
  | dataE ks => simp [step, h1]
  | settleE i r => simp [step, h2]
  | endE => simp [step, h1]
  | errE er => simp [step, h1]

/-- A resolved call with no outstanding pipelines stays frozen over any
trace. -/
lemma runFrom_resolved_frozen (es : List Ev) (s : DPState) (n : Nat)
    (h1 : s.phase = .resolvedP n) (h2 : s.pendingExecs = ∅) :
    runFrom s es = s := by
  induction es with
  | nil => rfl
  | cons e es ih =>
    rw [runFrom_cons, step_resolved_frozen s e n h1 h2]
    exact ih

/-- No event changes the phase of a rejected call. -/
lemma step_rejected_phase (s : DPState) (e : Ev) (e0 : String)
    (h1 : s.phase = .rejectedP e0) : (step s e).phase = .rejectedP e0 := by
  cases e with
  | dataE ks => simp [step, h1]
  | settleE i r =>
    by_cases hi : i ∈ s.pendingExecs
    · simp [step, hi, h1]
    · simp [step, hi, h1]
  | endE => simp [step, h1]
  | errE er => simp [step, h1]

/-- A rejected call stays rejected with the same error over any trace. -/
lemma runFrom_rejected_phase (es : List Ev) : ∀ (s : DPState) (e0 : String),
    s.phase = .rejectedP e0 → (runFrom s es).phase = .rejectedP e0 := by
  induction es with
  | nil => intro s e0 h; exact h
  | cons e es ih =>
    intro s e0 h
    rw [runFrom_cons]
    exact ih (step s e) e0 (step_rejected_phase s e e0 h)

/-- Step preservation of the resolution invariant: whenever the call is
resolved, no pipeline is outstanding and the resolved value is the current
tally. -/
lemma step_inv1 (s : DPState) (e : Ev)
    (h : ∀ n, s.phase = .resolvedP n →
        s.pendingExecs = ∅ ∧ s.deletedCount = n) :
    ∀ n, (step s e).phase = .resolvedP n →
      (step s e).pendingExecs = ∅ ∧ (step s e).deletedCount = n := by
  obtain ⟨dc, is, pe, sub, ph⟩ := s
  intro n hn
  cases e with
  | dataE ks =>
    cases ph with
    | scanning =>
      by_cases hk : ks.length ≠ 0
      · simp [step, hk] at hn
      · simp [step, hk] at hn
    | draining => simp [step] at hn
    | resolvedP m => exact h n hn
    | rejectedP e0 => simp [step] at hn
  | settleE i r =>
    by_cases hi : i ∈ pe
    · cases ph with
      | scanning => simp [step, hi] at hn
      | draining =>
        by_cases hp : pe.erase i = ∅
        · simp [step, hi, hp] at hn ⊢
          exact hn
        · simp [step, hi, hp] at hn
      | resolvedP m =>
        rcases h m rfl with ⟨h1, h2⟩
        have h1' : pe = ∅ := h1
        rw [h1'] at hi
        simp at hi
      | rejectedP e0 => simp [step, hi] at hn
    · simp only [step, hi, if_neg, if_false]
      simp [step, hi] at hn
      exact h n (by simpa using hn)
  | endE =>
    cases ph with
    | scanning =>
      by_cases hp : pe = ∅
      · simp [step, hp] at hn ⊢
        exact hn
      · simp [step, hp] at hn
    | draining => simp [step] at hn
    | resolvedP m => exact h n hn
    | rejectedP e0 => simp [step] at hn
  | errE e0 =>
    cases ph with
    | scanning => simp [step] at hn
    | draining => simp [step] at hn
    | resolvedP m => exact h n hn
    | rejectedP e1 => simp [step] at hn

/-- Run preservation of the resolution invariant. -/
lemma runFrom_inv1 (es : List Ev) : ∀ (s : DPState),
    (∀ n, s.phase = .resolvedP n → s.pendingExecs = ∅ ∧ s.deletedCount = n) →
    ∀ n, (runFrom s es).phase = .resolvedP n →
      (runFrom s es).pendingExecs = ∅ ∧ (runFrom s es).deletedCount = n := by
  induction es with
  | nil => intro s h; exact h
  | cons e es ih =>
    intro s h
    rw [runFrom_cons]
    exact ih (step s e) (step_inv1 s e h)

/-- Resolution invariant for a full call: a resolved `delPattern` call has
no outstanding pipeline, and its resolved value is its final tally. -/
lemma run_inv1 (es : List Ev) (n : Nat) (h : (run es).phase = .resolvedP n) :
    (run es).pendingExecs = ∅ ∧ (run es).deletedCount = n :=
  runFrom_inv1 es startState (by intro m hm; simp [startState] at hm) n h

/-- Master simulation lemma: along any well-formed trace the machine's
tally is the accumulated acknowledged sum, the issued counter and the
pending set follow the `issuedAfter`/`settledAfter` bookkeeping, the
submitted keys are exactly the keys the scan reported, and the call is
still scanning as long as no terminal event occurred. -/
lemma runFrom_master : ∀ (es : List Ev) (dc is : Nat) (pe settled : Finset Nat)
    (sub : List String) (ph : Phase) (t : Bool),
    pe = Finset.range is \ settled →
    settled ⊆ Finset.range is →
    (t = false → ph = .scanning) →
    wfFrom is settled t es = true →
    (runFrom ⟨dc, is, pe, sub, ph⟩ es).deletedCount = dc + settlesSum es ∧
    (runFrom ⟨dc, is, pe, sub, ph⟩ es).issued = issuedAfter is es ∧
    (runFrom ⟨dc, is, pe, sub, ph⟩ es).pendingExecs =
      Finset.range (issuedAfter is es) \ settledAfter settled es ∧
    (runFrom ⟨dc, is, pe, sub, ph⟩ es).submitted = sub ++ dataKeys es ∧
    (termAfter t es = false → (runFrom ⟨dc, is, pe, sub, ph⟩ es).phase = .scanning) := by
  intro es
  induction es with
  | nil =>
    intro dc is pe settled sub ph t hpe hsub ht hwf
    refine ⟨by simp [runFrom, settlesSum], rfl, ?_, by simp [runFrom, dataKeys], ?_⟩
    · simpa [runFrom, issuedAfter, settledAfter] using hpe
    · intro h0; exact ht h0
  | cons e es ih =>
    intro dc is pe settled sub ph t hpe hsub ht hwf
    cases e with
    | dataE ks =>
      simp only [wfFrom, Bool.and_eq_true, Bool.not_eq_true'] at hwf
      obtain ⟨ht0, hwf⟩ := hwf
      have hph : ph = .scanning := ht ht0
      subst hph
      subst ht0
      by_cases hk : ks.length ≠ 0
      · rw [if_pos hk] at hwf
        have hstep : step ⟨dc, is, pe, sub, .scanning⟩ (.dataE ks) =
            ⟨dc, is + 1, insert is pe, sub ++ ks, .scanning⟩ :=
          step_dataE_scanning _ ks rfl hk
        rw [runFrom_cons, hstep]
        have hpe' : insert is pe = Finset.range (is + 1) \ settled := by
          rw [hpe]; exact insert_range_sdiff hsub
        have hsub' : settled ⊆ Finset.range (is + 1) :=
          hsub.trans (Finset.range_subset.mpr (by omega))
        obtain ⟨i1, i2, i3, i4, i5⟩ :=
          ih dc (is + 1) (insert is pe) settled (sub ++ ks) .scanning false
            hpe' hsub' (fun _ => rfl) hwf
        refine ⟨?_, ?_, ?_, ?_, ?_⟩
        · simpa [settlesSum_cons, settleContrib] using i1
        · simpa [issuedAfter, hk] using i2
        · simpa [issuedAfter, settledAfter, hk] using i3
        · simpa [dataKeys, List.append_assoc] using i4
        · intro h5; exact i5 (by simpa [termAfter] using h5)
      · have hk0 : ks.length = 0 := by simpa using hk
        have hks : ks = [] := List.length_eq_zero.mp hk0
        rw [if_neg hk] at hwf
        rw [runFrom_cons, step_dataE_scanning_empty _ ks rfl hk0]
        obtain ⟨i1, i2, i3, i4, i5⟩ :=
          ih dc is pe settled sub .scanning false hpe hsub (fun _ => rfl) hwf
        refine ⟨?_, ?_, ?_, ?_, ?_⟩
        · simpa [settlesSum_cons, settleContrib] using i1
        · simpa [issuedAfter, hk0] using i2
        · simpa [issuedAfter, settledAfter, hk0] using i3
        · simpa [dataKeys, hks] using i4
        · intro h5; exact i5 (by simpa [termAfter] using h5)
    | settleE i r =>
      simp only [wfFrom, Bool.and_eq_true, Bool.not_eq_true', decide_eq_true_eq,
        decide_eq_false_iff_not] at hwf
      obtain ⟨⟨hlt, hni⟩, hwf⟩ := hwf
      have hipe : i ∈ pe := by
        rw [hpe]; exact Finset.mem_sdiff.mpr ⟨Finset.mem_range.mpr hlt, hni⟩
      have hpe' : pe.erase i = Finset.range is \ insert i settled := by
        rw [hpe]; exact erase_range_sdiff is settled i
      have hsettled' : insert i settled ⊆ Finset.range is := by
        intro x hx
        rcases Finset.mem_insert.mp hx with rfl | hx
        · exact Finset.mem_range.mpr hlt
        · exact hsub hx
      cases ph with
      | scanning =>
        have hstep : step ⟨dc, is, pe, sub, .scanning⟩ (.settleE i r) =
            ⟨dc + execContrib r, is, pe.erase i, sub, .scanning⟩ := by
          simp [step, hipe]
        rw [runFrom_cons, hstep]
        obtain ⟨i1, i2, i3, i4, i5⟩ :=
          ih (dc + execContrib r) is (pe.erase i) (insert i settled) sub
            .scanning t hpe' hsettled' (fun _ => rfl) hwf
        refine ⟨?_, ?_, ?_, ?_, ?_⟩
        · simpa [settlesSum_cons, settleContrib, Nat.add_assoc] using i1
        · simpa [issuedAfter] using i2
        · simpa [issuedAfter, settledAfter] using i3
        · simpa [dataKeys] using i4
        · intro h5; exact i5 (by simpa [termAfter] using h5)
      | draining =>
        have ht1 : t = true := by
          cases t with
          | false => exact absurd (ht rfl) (by simp)
          | true => rfl
        subst ht1
        by_cases hp : pe.erase i = ∅
        · have hstep : step ⟨dc, is, pe, sub, .draining⟩ (.settleE i r) =
              ⟨dc + execContrib r, is, pe.erase i, sub,
                .resolvedP (dc + execContrib r)⟩ := by
            simp [step, hipe, hp]
          rw [runFrom_cons, hstep]
          obtain ⟨i1, i2, i3, i4, i5⟩ :=
            ih (dc + execContrib r) is (pe.erase i) (insert i settled) sub
              (.resolvedP (dc + execContrib r)) true hpe' hsettled'
              (by intro h; exact absurd h (by decide)) hwf
          refine ⟨?_, ?_, ?_, ?_, ?_⟩
          · simpa [settlesSum_cons, settleContrib, Nat.add_assoc] using i1
          · simpa [issuedAfter] using i2
          · simpa [issuedAfter, settledAfter] using i3
          · simpa [dataKeys] using i4
          · intro h5
            simp [termAfter, termAfter_true] at h5
        · have hstep : step ⟨dc, is, pe, sub, .draining⟩ (.settleE i r) =
              ⟨dc + execContrib r, is, pe.erase i, sub, .draining⟩ := by
            simp [step, hipe, hp]
          rw [runFrom_cons, hstep]
          obtain ⟨i1, i2, i3, i4, i5⟩ :=
            ih (dc + execContrib r) is (pe.erase i) (insert i settled) sub
              .draining true hpe' hsettled'
              (by intro h; exact absurd h (by decide)) hwf
          refine ⟨?_, ?_, ?_, ?_, ?_⟩
          · simpa [settlesSum_cons, settleContrib, Nat.add_assoc] using i1
          · simpa [issuedAfter] using i2
          · simpa [issuedAfter, settledAfter] using i3
          · simpa [dataKeys] using i4
          · intro h5
            simp [termAfter, termAfter_true] at h5
      | resolvedP m =>
        have ht1 : t = true := by
          cases t with
          | false => exact absurd (ht rfl) (by simp)
          | true => rfl
        subst ht1
        have hstep : step ⟨dc, is, pe, sub, .resolvedP m⟩ (.settleE i r) =
            ⟨dc + execContrib r, is, pe.erase i, sub, .resolvedP m⟩ := by
          simp [step, hipe]
        rw [runFrom_cons, hstep]
        obtain ⟨i1, i2, i3, i4, i5⟩ :=
          ih (dc + execContrib r) is (pe.erase i) (insert i settled) sub
            (.resolvedP m) true hpe' hsettled'
            (by intro h; exact absurd h (by decide)) hwf
        refine ⟨?_, ?_, ?_, ?_, ?_⟩
        · simpa [settlesSum_cons, settleContrib, Nat.add_assoc] using i1
        · simpa [issuedAfter] using i2
        · simpa [issuedAfter, settledAfter] using i3
        · simpa [dataKeys] using i4
        · intro h5
          simp [termAfter, termAfter_true] at h5
      | rejectedP e0 =>
        have ht1 : t = true := by
          cases t with
          | false => exact absurd (ht rfl) (by simp)
          | true => rfl
        subst ht1
        have hstep : step ⟨dc, is, pe, sub, .rejectedP e0⟩ (.settleE i r) =
            ⟨dc + execContrib r, is, pe.erase i, sub, .rejectedP e0⟩ := by
          simp [step, hipe]
        rw [runFrom_cons, hstep]
        obtain ⟨i1, i2, i3, i4, i5⟩ :=
          ih (dc + execContrib r) is (pe.erase i) (insert i settled) sub
            (.rejectedP e0) true hpe' hsettled'
            (by intro h; exact absurd h (by decide)) hwf
        refine ⟨?_, ?_, ?_, ?_, ?_⟩
        · simpa [settlesSum_cons, settleContrib, Nat.add_assoc] using i1
        · simpa [issuedAfter] using i2
        · simpa [issuedAfter, settledAfter] using i3
        · simpa [dataKeys] using i4
        · intro h5
          simp [termAfter, termAfter_true] at h5
    | endE =>
      simp only [wfFrom, Bool.and_eq_true, Bool.not_eq_true'] at hwf
      obtain ⟨ht0, hwf⟩ := hwf
      have hph : ph = .scanning := ht ht0
      subst hph
      subst ht0
      rw [runFrom_cons, step_endE_scanning _ rfl]
      by_cases hp : pe = ∅
      · rw [if_pos hp]
        obtain ⟨i1, i2, i3, i4, i5⟩ :=
          ih dc is pe settled sub (.resolvedP dc) true hpe hsub
            (by intro h; exact absurd h (by decide)) hwf
        refine ⟨?_, ?_, ?_, ?_, ?_⟩
        · simpa [settlesSum_cons, settleContrib] using i1
        · simpa [issuedAfter] using i2
        · simpa [issuedAfter, settledAfter] using i3
        · simpa [dataKeys] using i4
        · intro h5
          simp [termAfter, termAfter_true] at h5
      · rw [if_neg hp]
        obtain ⟨i1, i2, i3, i4, i5⟩ :=
          ih dc is pe settled sub .draining true hpe hsub
            (by intro h; exact absurd h (by decide)) hwf
        refine ⟨?_, ?_, ?_, ?_, ?_⟩
        · simpa [settlesSum_cons, settleContrib] using i1
        · simpa [issuedAfter] using i2
        · simpa [issuedAfter, settledAfter] using i3
        · simpa [dataKeys] using i4
        · intro h5
          simp [termAfter, termAfter_true] at h5
    | errE e0 =>
      simp only [wfFrom, Bool.and_eq_true, Bool.not_eq_true'] at hwf
      obtain ⟨ht0, hwf⟩ := hwf
      have hph : ph = .scanning := ht ht0
      subst hph
      subst ht0
      rw [runFrom_cons, step_errE_scanning _ e0 rfl]
      obtain ⟨i1, i2, i3, i4, i5⟩ :=
        ih dc is pe settled sub (.rejectedP e0) true hpe hsub
          (by intro h; exact absurd h (by decide)) hwf
      refine ⟨?_, ?_, ?_, ?_, ?_⟩
      · simpa [settlesSum_cons, settleContrib] using i1
      · simpa [issuedAfter] using i2
      · simpa [issuedAfter, settledAfter] using i3
      · simpa [dataKeys] using i4
      · intro h5
        simp [termAfter, termAfter_true] at h5

/-- Issued-counter bookkeeping decomposes over append. -/
lemma issuedAfter_append (xs ys : List Ev) : ∀ i : Nat,
    issuedAfter i (xs ++ ys) = issuedAfter (issuedAfter i xs) ys := by
  induction xs with
  | nil => intro i; rfl
  | cons e xs ih => intro i; cases e <;> simp [issuedAfter, ih]

/-- Settled-set bookkeeping decomposes over append. -/
lemma settledAfter_append (xs ys : List Ev) : ∀ st : Finset Nat,
    settledAfter st (xs ++ ys) = settledAfter (settledAfter st xs) ys := by
  induction xs with
  | nil => intro st; rfl
  | cons e xs ih => intro st; cases e <;> simp [settledAfter, ih]

/-- Well-formedness decomposes over append, threading the bookkeeping. -/
lemma wfFrom_append (xs ys : List Ev) : ∀ (i : Nat) (st : Finset Nat) (t : Bool),
    wfFrom i st t (xs ++ ys) =
      (wfFrom i st t xs &&
        wfFrom (issuedAfter i xs) (settledAfter st xs) (termAfter t xs) ys) := by
  induction xs with
  | nil =>
    intro i st t
    simp [wfFrom, issuedAfter, settledAfter, termAfter]
  | cons e xs ih =>
    intro i st t
    cases e <;>
      simp [wfFrom, issuedAfter, settledAfter, termAfter, ih, Bool.and_assoc]

/-- After the terminal event a well-formed trace issues no further
pipeline. -/
lemma issuedAfter_of_term : ∀ (ys : List Ev) (is : Nat) (st : Finset Nat),
    wfFrom is st true ys = true → issuedAfter is ys = is := by
  intro ys
  induction ys with
  | nil => intros; rfl
  | cons e ys ih =>
    intro is st hwf
    cases e with
    | dataE ks => simp [wfFrom] at hwf
    | settleE i r =>
      simp only [wfFrom, Bool.and_eq_true, decide_eq_true_eq, Bool.not_eq_true',
        decide_eq_false_iff_not] at hwf
      simpa [issuedAfter] using ih is (insert i st) hwf.2
    | endE => simp [wfFrom] at hwf
    | errE e0 => simp [wfFrom] at hwf

/-- A draining call whose every issued pipeline eventually settles resolves:
the settlement of the last outstanding pipeline flips the phase to
resolved, and a resolved call is frozen. -/
lemma drain_resolves : ∀ (ys : List Ev) (dc is : Nat) (pe settled : Finset Nat)
    (sub : List String),
    pe = Finset.range is \ settled → pe ≠ ∅ →
    wfFrom is settled true ys = true →
    Finset.range is ⊆ settledAfter settled ys →
    ∃ m, (runFrom ⟨dc, is, pe, sub, .draining⟩ ys).phase = .resolvedP m := by
  intro ys
  induction ys with
  | nil =>
    intro dc is pe settled sub hpe hne hwf hsub
    refine absurd ?_ hne
    rw [hpe]
    exact Finset.sdiff_eq_empty_iff_subset.mpr hsub
  | cons e ys ih =>
    intro dc is pe settled sub hpe hne hwf hsub
    cases e with
    | dataE ks => simp [wfFrom] at hwf
    | endE => simp [wfFrom] at hwf
    | errE e0 => simp [wfFrom] at hwf
    | settleE i r =>
      simp only [wfFrom, Bool.and_eq_true, decide_eq_true_eq, Bool.not_eq_true',
        decide_eq_false_iff_not] at hwf
      obtain ⟨⟨hlt, hni⟩, hwf⟩ := hwf
      have hipe : i ∈ pe := by
        rw [hpe]; exact Finset.mem_sdiff.mpr ⟨Finset.mem_range.mpr hlt, hni⟩
      by_cases hp : pe.erase i = ∅
      · have hstep : step ⟨dc, is, pe, sub, .draining⟩ (.settleE i r) =
            ⟨dc + execContrib r, is, pe.erase i, sub,
              .resolvedP (dc + execContrib r)⟩ := by
          simp [step, hipe, hp]
        rw [runFrom_cons, hstep]
        refine ⟨dc + execContrib r, ?_⟩
        rw [runFrom_resolved_frozen ys _ (dc + execContrib r) rfl hp]
      · have hstep : step ⟨dc, is, pe, sub, .draining⟩ (.settleE i r) =
            ⟨dc + execContrib r, is, pe.erase i, sub, .draining⟩ := by
          simp [step, hipe, hp]
        rw [runFrom_cons, hstep]
        refine ih (dc + execContrib r) is (pe.erase i) (insert i settled) sub
          ?_ hp hwf ?_
        · rw [hpe]; exact erase_range_sdiff is settled i
        · simpa [settledAfter] using hsub

/-- Bundled form of the master lemma for a full call from the start
state. -/
lemma run_master (es : List Ev) (hwf : WF es = true) :
    (run es).deletedCount = settlesSum es ∧
    (run es).issued = issuedAfter 0 es ∧
    (run es).pendingExecs =
      Finset.range (issuedAfter 0 es) \ settledAfter ∅ es ∧
    (run es).submitted = dataKeys es ∧
    (termAfter false es = false → (run es).phase = .scanning) := by
  obtain ⟨m1, m2, m3, m4, m5⟩ :=
    runFrom_master es 0 0 ∅ ∅ [] .scanning false (by simp) (by simp)
      (fun _ => rfl) hwf
  refine ⟨by simpa using m1, by simpa using m2, by simpa using m3,
    by simpa using m4, by simpa using m5⟩

/-- A well-formed trace whose scan reaches end-of-stream and whose every
issued pipeline eventually settles resolves the call. -/
lemma complete_resolves (xs ys : List Ev)
    (hwf : WF (xs ++ .endE :: ys) = true)
    (hc : Finset.range (issuedAfter 0 (xs ++ .endE :: ys)) ⊆
        settledAfter ∅ (xs ++ .endE :: ys)) :
    ∃ m, (run (xs ++ .endE :: ys)).phase = .resolvedP m := by
  have hwf0 : wfFrom 0 ∅ false (xs ++ .endE :: ys) = true := hwf
  rw [wfFrom_append] at hwf0
  simp only [Bool.and_eq_true] at hwf0
  obtain ⟨hwfxs, hwfrest⟩ := hwf0
  simp only [wfFrom, Bool.and_eq_true, Bool.not_eq_true'] at hwfrest
  obtain ⟨ht1, hwfys⟩ := hwfrest
  obtain ⟨m1, m2, m3, m4, m5⟩ :=
    runFrom_master xs 0 0 ∅ ∅ [] .scanning false (by simp) (by simp)
      (fun _ => rfl) hwfxs
  have hph := m5 ht1
  have hrun : run (xs ++ .endE :: ys) =
      runFrom (runFrom ⟨0, 0, ∅, [], .scanning⟩ xs) (.endE :: ys) :=
    runFrom_append _ xs (.endE :: ys)
  rw [hrun, runFrom_cons, step_endE_scanning _ hph]
  by_cases hp : (runFrom ⟨0, 0, ∅, [], .scanning⟩ xs).pendingExecs = ∅
  · rw [if_pos hp]
    refine ⟨(runFrom ⟨0, 0, ∅, [], .scanning⟩ xs).deletedCount, ?_⟩
    rw [runFrom_resolved_frozen ys
      { runFrom ⟨0, 0, ∅, [], .scanning⟩ xs with
          phase := .resolvedP (runFrom ⟨0, 0, ∅, [], .scanning⟩ xs).deletedCount }
      (runFrom ⟨0, 0, ∅, [], .scanning⟩ xs).deletedCount rfl hp]
  · rw [if_neg hp]
    have hc' : Finset.range (runFrom ⟨0, 0, ∅, [], .scanning⟩ xs).issued ⊆
        settledAfter (settledAfter ∅ xs) ys := by
      rw [m2]
      have hiys : issuedAfter 0 (xs ++ .endE :: ys) = issuedAfter 0 xs := by
        rw [issuedAfter_append]
        show issuedAfter (issuedAfter 0 xs) ys = issuedAfter 0 xs
        exact issuedAfter_of_term ys _ _ hwfys
      have hsys : settledAfter ∅ (xs ++ .endE :: ys) =
          settledAfter (settledAfter ∅ xs) ys := by
        rw [settledAfter_append]; rfl
      rw [hiys, hsys] at hc
      exact hc
    have hwfys' : wfFrom (runFrom ⟨0, 0, ∅, [], .scanning⟩ xs).issued
        (settledAfter ∅ xs) true ys = true := by
      rw [m2]; exact hwfys
    have hpe' : (runFrom ⟨0, 0, ∅, [], .scanning⟩ xs).pendingExecs =
        Finset.range (runFrom ⟨0, 0, ∅, [], .scanning⟩ xs).issued \
          settledAfter ∅ xs := by
      rw [m2]; exact m3
    exact drain_resolves ys _ _ _ _ _ hpe' hp hwfys' hc'

/-- A complete successful-scan trace resolves with exactly the acknowledged
sum. -/
lemma complete_resolves_sum (xs ys : List Ev)
    (hwf : WF (xs ++ .endE :: ys) = true)
    (hc : Finset.range (issuedAfter 0 (xs ++ .endE :: ys)) ⊆
        settledAfter ∅ (xs ++ .endE :: ys)) :
    (run (xs ++ .endE :: ys)).phase =
      .resolvedP (settlesSum (xs ++ .endE :: ys)) := by
  obtain ⟨m, hm⟩ := complete_resolves xs ys hwf hc
  obtain ⟨hpe0, hdc⟩ := run_inv1 _ m hm
  have w1 := (run_master _ hwf).1
  rw [hdc] at w1
  rw [hm, w1]

/-- A scan that only ever reports empty batches leaves the start state
unchanged: no pipeline is built for an empty key array. -/
lemma runFrom_empty_batches : ∀ xs : List Ev,
    (∀ ev ∈ xs, ev = .dataE ([] : List String)) →
    runFrom startState xs = startState := by
  intro xs
  induction xs with
  | nil => intro h; rfl
  | cons e es ih =>
    intro h
    have he := h e (List.mem_cons_self e es)
    subst he
    rw [runFrom_cons]
    have hst : step startState (.dataE []) = startState := rfl
    rw [hst]
    exact ih (fun ev hev => h ev (List.mem_cons_of_mem _ hev))

/-- C1: a `delPattern` call never resolves while any issued batch-delete is
still outstanding: along every event interleaving, whenever the call's
promise is resolved, the set of issued-but-unsettled batch pipelines is
empty — after end-of-stream the call waits for every pipeline issued during
the whole scan. -/
theorem delPattern_no_resolve_while_outstanding (es : List Ev) (n : Nat)
    (h : (run es).phase = .resolvedP n) : (run es).pendingExecs = ∅ :=
  (run_inv1 es n h).1

/-- Witness for C1 at a concrete trace that resolves with 2. -/
theorem delPattern_no_resolve_while_outstanding_witness :
    (run [.dataE ["a", "b"],
        .settleE 0 (.execResolved (some [.okNum 1, .okNum 1])),
        .endE]).phase = .resolvedP 2 ∧
    (run [.dataE ["a", "b"],
        .settleE 0 (.execResolved (some [.okNum 1, .okNum 1])),
        .endE]).pendingExecs = ∅ :=
  ⟨by decide, delPattern_no_resolve_while_outstanding _ 2 (by decide)⟩

/-- C2: whenever a `delPattern` call resolves, the resolved count equals
the sum, over all settled batch pipelines, of the per-key deletion counts
the store acknowledged — not the number of keys observed or requested
(a per-key error or non-numeric reply contributes 0 via `execContrib`). -/
theorem delPattern_count_acknowledged (es : List Ev) (n : Nat)
    (hwf : WF es = true) (h : (run es).phase = .resolvedP n) :
    n = settlesSum es := by
  obtain ⟨hpe, hdc⟩ := run_inv1 es n h
  rw [← hdc]
  exact (run_master es hwf).1

/-- Witness for C2: a key observed but not deleted (count 0) does not
count; the call resolves with 1, the acknowledged sum. -/
theorem delPattern_count_acknowledged_witness :
    WF [.dataE ["a", "b"],
        .settleE 0 (.execResolved (some [.okNum 1, .okNum 0])),
        .endE] = true ∧
    1 = settlesSum [.dataE ["a", "b"],
        .settleE 0 (.execResolved (some [.okNum 1, .okNum 0])),
        .endE] :=
  ⟨by decide, delPattern_count_acknowledged _ 1 (by decide) (by decide)⟩

/-- C3: if the scan reports an error at any point, the `delPattern` call
rejects with exactly that error, and in particular never resolves with any
count. -/
theorem delPattern_scan_error_propagates (xs ys : List Ev) (e : String)
    (hwf : WF (xs ++ .errE e :: ys) = true) :
    (run (xs ++ .errE e :: ys)).phase = .rejectedP e ∧
    ∀ n, (run (xs ++ .errE e :: ys)).phase ≠ .resolvedP n := by
  have hwf0 : wfFrom 0 ∅ false (xs ++ .errE e :: ys) = true := hwf
  rw [wfFrom_append] at hwf0
  simp only [Bool.and_eq_true] at hwf0
  obtain ⟨hwfxs, hwfrest⟩ := hwf0
  simp only [wfFrom, Bool.and_eq_true, Bool.not_eq_true'] at hwfrest
  obtain ⟨ht1, hwfys⟩ := hwfrest
  obtain ⟨m1, m2, m3, m4, m5⟩ :=
    runFrom_master xs 0 0 ∅ ∅ [] .scanning false (by simp) (by simp)
      (fun _ => rfl) hwfxs
  have hph := m5 ht1
  have hrun : run (xs ++ .errE e :: ys) =
      runFrom (runFrom ⟨0, 0, ∅, [], .scanning⟩ xs) (.errE e :: ys) :=
    runFrom_append _ xs (.errE e :: ys)
  rw [hrun, runFrom_cons, step_errE_scanning _ e hph]
  have habs := runFrom_rejected_phase ys
    { runFrom ⟨0, 0, ∅, [], .scanning⟩ xs with phase := .rejectedP e } e rfl
  refine ⟨habs, ?_⟩
  intro n hcon
  rw [habs] at hcon
  simp at hcon

/-- Witness for C3 at a concrete trace with a scan error after one
batch. -/
theorem delPattern_scan_error_propagates_witness :
    WF ([.dataE ["a"]] ++ .errE "scan failed" :: [.settleE 0 .execRejected])
      = true ∧
    (run ([.dataE ["a"]] ++ .errE "scan failed" ::
        [.settleE 0 .execRejected])).phase = .rejectedP "scan failed" :=
  ⟨by decide,
    (delPattern_scan_error_propagates [.dataE ["a"]] [.settleE 0 .execRejected]
      "scan failed" (by decide)).1⟩

/-- C4: a failed batch-delete does not fail the call: on any complete trace
whose scan ends normally and whose every issued pipeline settles — even
when one of them settles as rejected — the call still resolves, with the
acknowledged sum of all batches, the rejected batch contributing zero. -/
theorem delPattern_batch_failure_isolated (xs ys : List Ev) (i : Nat)
    (hwf : WF (xs ++ .endE :: ys) = true)
    (hc : Finset.range (issuedAfter 0 (xs ++ .endE :: ys)) ⊆
        settledAfter ∅ (xs ++ .endE :: ys))
    (_hfail : .settleE i .execRejected ∈ xs ++ .endE :: ys) :
    (run (xs ++ .endE :: ys)).phase =
      .resolvedP (settlesSum (xs ++ .endE :: ys)) ∧
    execContrib .execRejected = 0 :=
  ⟨complete_resolves_sum xs ys hwf hc, rfl⟩

/-- Witness for C4: batch 0 fails, batch 1 deletes one key; the call still
resolves with 1. -/
theorem delPattern_batch_failure_isolated_witness :
    settlesSum ([.dataE ["a"], .settleE 0 .execRejected, .dataE ["b"]] ++
      .endE :: [.settleE 1 (.execResolved (some [.okNum 1]))]) = 1 ∧
    (run ([.dataE ["a"], .settleE 0 .execRejected, .dataE ["b"]] ++
        .endE :: [.settleE 1 (.execResolved (some [.okNum 1]))])).phase =
      .resolvedP (settlesSum
        ([.dataE ["a"], .settleE 0 .execRejected, .dataE ["b"]] ++
          .endE :: [.settleE 1 (.execResolved (some [.okNum 1]))])) :=
  ⟨by decide,
    (delPattern_batch_failure_isolated
      [.dataE ["a"], .settleE 0 .execRejected, .dataE ["b"]]
      [.settleE 1 (.execResolved (some [.okNum 1]))] 0
      (by decide) (by decide) (by decide)).1⟩

/-- C8: a `delPattern` whose scan reports no matching key (any number of
empty batches, then end-of-stream) resolves successfully with 0, and every
resolved count is a non-negative integer. -/
theorem delPattern_zero_matches_resolves_zero (xs : List Ev)
    (h : ∀ ev ∈ xs, ev = .dataE ([] : List String)) :
    (run (xs ++ [.endE])).phase = .resolvedP 0 ∧
    (∀ es n, (run es).phase = .resolvedP n → 0 ≤ n) := by
  constructor
  · show (runFrom startState (xs ++ [.endE])).phase = .resolvedP 0
    rw [runFrom_append, runFrom_empty_batches xs h]
    rfl
  · intro es n hn
    exact Nat.zero_le n

/-- Witness for C8: one empty batch then end-of-stream resolves with 0. -/
theorem delPattern_zero_matches_resolves_zero_witness :
    (run ([.dataE []] ++ [.endE])).phase = .resolvedP 0 :=
  (delPattern_zero_matches_resolves_zero [.dataE []] (by decide)).1

/-- C9 counterexample: the engine does not deduplicate keys across scan
batches — on a well-formed trace in which the scan reports the key `"k"`
in two different batches (which the underlying store's scan may do under
concurrent mutation), the call submits `"k"` for deletion twice and still
resolves. -/
theorem delPattern_double_submit_counterexample :
    WF [.dataE ["k"], .settleE 0 (.execResolved (some [.okNum 1])),
        .dataE ["k"], .settleE 1 (.execResolved (some [.okNum 1])),
        .endE] = true ∧
    (run [.dataE ["k"], .settleE 0 (.execResolved (some [.okNum 1])),
        .dataE ["k"], .settleE 1 (.execResolved (some [.okNum 1])),
        .endE]).phase = .resolvedP 2 ∧
    (run [.dataE ["k"], .settleE 0 (.execResolved (some [.okNum 1])),
        .dataE ["k"], .settleE 1 (.execResolved (some [.okNum 1])),
        .endE]).submitted.count "k" = 2 := by
  refine ⟨by decide, by decide, by decide⟩

/-- C9 amended: within one call the engine submits exactly the keys the
scan reports, adding no duplication of its own — so each key is submitted
at most once whenever the scan reports each key at most once. -/
theorem delPattern_submits_scan_verbatim (es : List Ev) (hwf : WF es = true) :
    (run es).submitted = dataKeys es ∧
    ((dataKeys es).Nodup → (run es).submitted.Nodup) := by
  have h4 := (run_master es hwf).2.2.2.1
  exact ⟨h4, fun hnd => h4 ▸ hnd⟩

/-- Witness for the amended C9 at a concrete trace. -/
theorem delPattern_submits_scan_verbatim_witness :
    (run [.dataE ["a", "b"], .settleE 0 (.execResolved (some [.okNum 2])),
        .endE]).submitted =
      dataKeys [.dataE ["a", "b"],
        .settleE 0 (.execResolved (some [.okNum 2])), .endE] :=
  (delPattern_submits_scan_verbatim _ (by decide)).1

/-- C5: for every input, `get`, `set`, `del` and `clear` never propagate a
store or decode error: on a store failure or a decode failure the error is
only logged and the operation returns its neutral result — `none` for
`get`, normal completion for `set`, `del` and `clear`. -/
theorem soft_ops_never_propagate :
    (∀ (V : Type) (g : Except String (Option String))
        (parse : String → Except String V), ∃ r, get g parse = .ok r) ∧
    (∀ (V : Type) (e : String) (parse : String → Except String V),
        get (V := V) (.error e) parse = .ok none) ∧
    (∀ (V : Type) (s : String) (parse : String → Except String V) (e : String),
        parse s = .error e → get (.ok (some s)) parse = .ok none) ∧
    (∀ (k : String) (sr : Except String String) (ttl : Option Nat)
        (store : SetCommand → Except String Unit), set k sr ttl store = .ok ()) ∧
    (∀ d : Except String Nat, del d = .ok ()) ∧
    (∀ f : Except String String, clear f = .ok ()) := by
  refine ⟨?_, ?_, ?_, ?_, ?_, ?_⟩
  · intro V g parse
    cases g with
    | error e => exact ⟨none, rfl⟩
    | ok o =>
      cases o with
      | none => exact ⟨none, rfl⟩
      | some data =>
        by_cases h : data = ""
        · exact ⟨none, by simp [get, h]⟩
        · cases hp : parse data with
          | error e => exact ⟨none, by simp [get, h, hp]⟩
          | ok v => exact ⟨some v, by simp [get, h, hp]⟩
  · intro V e parse; rfl
  · intro V s parse e hp
    by_cases h : s = ""
    · simp [get, h]
    · simp [get, h, hp]
  · intro k sr ttl store
    cases sr with
    | error e => rfl
    | ok sv =>
      cases h : store (setCommand k sv ttl) with
      | error e => simp [set, h]
      | ok u => simp [set, h]
  · intro d; cases d <;> rfl
  · intro f; cases f <;> rfl

/-- Witness for C5 at a concrete input: a decode failure on `get` yields
`none`, not an error. -/
theorem soft_ops_never_propagate_witness :
    get (V := Nat) (.ok (some "x")) (fun _ => .error "bad") = .ok none :=
  soft_ops_never_propagate.2.2.1 Nat "x" (fun _ => .error "bad") "bad" rfl

/-- C6 counterexample: the scan batch size is not configurable — clients
constructed with entirely different options all issue `scanStream` with
`count` equal to `100`, and no construction-time option makes the requested
batch size differ from `100`. -/
theorem batch_size_fixed_counterexample :
    (delPatternScanArgs ⟨some "redis.example", some 6380, some "pw", true⟩
        "user:*").count = 100 ∧
    (delPatternScanArgs ⟨none, none, none, false⟩ "user:*").count = 100 ∧
    ¬ ∃ (o : RedisCacheClientOptions) (p : String),
        (delPatternScanArgs o p).count ≠ 100 := by
  refine ⟨rfl, rfl, ?_⟩
  rintro ⟨o, p, h⟩
  exact h rfl

/-- C6 amended: the scan driving `delPattern` always requests batches of at
most 100 keys; the batch size defaults to 100 and is not configurable. -/
theorem delPattern_scan_count_always_100 (o : RedisCacheClientOptions)
    (p : String) : (delPatternScanArgs o p).count = 100 := rfl

/-- C7 counterexample: when the underlying `quit` rejects — as the store
client does when the connection has already been ended — `disconnect`
propagates the rejection to the caller instead of completing. -/
theorem disconnect_error_counterexample :
    disconnect (.error "Connection is closed.") =
      .error "Connection is closed." := rfl

/-- C7 amended: `disconnect` simply forwards the outcome of the underlying
`quit` — it completes without error exactly when `quit` resolves, and, with
no error containment unlike the other operations, propagates any `quit`
rejection to the caller. -/
theorem disconnect_mirrors_quit :
    (∀ s : String, disconnect (.ok s) = .ok ()) ∧
    (∀ e : String, disconnect (.error e) = .error e) :=
  ⟨fun _ => rfl, fun _ => rfl⟩

/-- C10: calling `set` with a `ttl` of `0` behaves exactly like calling
`set` with the `ttl` omitted: the truthiness test `if (ttl)` treats `0` as
absent, so the key is stored with a plain `SET`, without expiration. -/
theorem set_ttl_zero_same_as_omitted :
    (∀ k v : String, setCommand k v (some 0) = setCommand k v none) ∧
    (∀ k v : String, setCommand k v (some 0) = .setPlain k v) ∧
    (∀ (k v : String) (store : SetCommand → Except String Unit),
        set k (.ok v) (some 0) store = set k (.ok v) none store) :=
  ⟨fun _ _ => rfl, fun _ _ => rfl, fun _ _ _ => rfl⟩

end RedisCacheClient
